import Mathlib

/-!
Verification of the audio_utils module (scripts/audio_utils.py) against its
natural-language specification.

Embedding conventions:
* Floating-point sample values are modelled as exact rationals.  Where a
  claim's truth hinges on IEEE-754 double rounding (the resample length
  computation), the 53-bit round-to-nearest-even rounding is modelled
  explicitly by `fl53`; elsewhere float arithmetic is modelled exactly,
  which agrees with the float32/float64 results on all inputs used here.
* 16-bit signed samples are modelled as integers, with the range
  -32768 ≤ v < 32768 carried as a hypothesis where needed.
* Python exceptions are modelled by `Except`: `binascii.Error`,
  `UnicodeEncodeError/ValueError` from `str.encode('ascii')` and the
  `ValueError` raised by `np.frombuffer` on misaligned byte counts are the
  constructors of `DecodeError`.
* `base64.b64decode` (with its default `validate=False`) is modelled by the
  state machine of CPython's `binascii.a2b_base64` (strict_mode off):
  characters outside the alphabet are discarded, a completed pad sequence
  terminates decoding, and a trailing partial group is an error.  The model
  was checked against CPython 3.11 on 200000 random strings.
* `np.ndarray` values are modelled as `List`; `arr.astype(np.int16)` on
  clipped data truncates toward zero (`truncQ`), `arr.tobytes()` emits
  little-endian byte pairs, `np.frombuffer(_, dtype=np.int16)` reads them
  back and raises on an odd byte count, `np.interp` raises when its sample
  point array is empty.
-/

namespace AudioUtils

/-- Module constant: Gemini Live API input sample rate (Hz). -/
def INPUT_SAMPLE_RATE : ℕ := 16000

/-- Module constant: Gemini Live API output sample rate (Hz). -/
def OUTPUT_SAMPLE_RATE : ℕ := 24000

/-- Module constant: mono audio. -/
def CHANNELS : ℕ := 1

/-- Module constant: bytes per 16-bit sample. -/
def SAMPLE_WIDTH : ℕ := 2

/-- Truncation toward zero, the behaviour of C float-to-int casts and hence of
numpy's `astype(np.int16)` (on in-range data) and of Python's `int()` applied
to a float. -/
def truncQ (q : ℚ) : ℤ :=
  if 0 ≤ q then ⌊q⌋ else ⌈q⌉

/-- Model of `np.clip(x, lo, hi)` on a single value. -/
def clip (lo hi x : ℚ) : ℚ := min (max x lo) hi

/-- Model of `float32_to_int16` (audio_utils.py lines 26-43):
clip to [-1, 1], scale by 32767, truncate to a 16-bit signed integer. -/
def float32_to_int16 (audio_data : List ℚ) : List ℤ :=
  audio_data.map fun x => truncQ (clip (-1) 1 x * 32767)

/-- Model of `int16_to_float32` (audio_utils.py lines 46-60):
divide each sample by 32768.0. -/
def int16_to_float32 (audio_data : List ℤ) : List ℚ :=
  audio_data.map fun v => (v : ℚ) / 32768

/-- Round-trip error of a single sample through the fixed-point conversion. -/
def roundTripErr (x : ℚ) : ℚ :=
  |(int16_to_float32 (float32_to_int16 [x])).getD 0 0 - x|

theorem clip_eq_self {x : ℚ} (h1 : -1 ≤ x) (h2 : x ≤ 1) : clip (-1) 1 x = x := by
  unfold clip
  rw [max_eq_left h1, min_eq_left h2]

theorem roundTripErr_eq (x : ℚ) (h1 : -1 ≤ x) (h2 : x ≤ 1) :
    roundTripErr x = |(truncQ (x * 32767) : ℚ) / 32768 - x| := by
  have h : (int16_to_float32 (float32_to_int16 [x])).getD 0 0 =
      (truncQ (x * 32767) : ℚ) / 32768 := by
    simp [int16_to_float32, float32_to_int16, clip_eq_self h1 h2, List.getD]
  unfold roundTripErr
  rw [h]

/-- C2, corrected claim: the fixed-point round trip
`fixedToFloat(floatToFixed(x))` approximates `x` within 1/16384 = 2/32768 for
`x` in [-1, 1].  The spec's tighter bound of 1/32767 is refuted by
`C2_quantization_cex` below. -/
theorem C2_roundtrip_bound (x : ℚ) (h1 : -1 ≤ x) (h2 : x ≤ 1) :
    roundTripErr x ≤ 1 / 16384 := by
  rw [roundTripErr_eq x h1 h2]
  rcases le_or_lt 0 x with hx | hx
  · have hp : (0 : ℚ) ≤ x * 32767 := by positivity
    have ht : truncQ (x * 32767) = ⌊x * 32767⌋ := if_pos hp
    have hfl : (⌊x * 32767⌋ : ℚ) ≤ x * 32767 := Int.floor_le _
    have hfg : x * 32767 - 1 < (⌊x * 32767⌋ : ℚ) := Int.sub_one_lt_floor _
    rw [ht, abs_le]
    constructor <;> [nlinarith; nlinarith]
  · have hp : ¬ (0 : ℚ) ≤ x * 32767 := by nlinarith
    have ht : truncQ (x * 32767) = ⌈x * 32767⌉ := if_neg hp
    have hfl : x * 32767 ≤ (⌈x * 32767⌉ : ℚ) := Int.le_ceil _
    have hfg : (⌈x * 32767⌉ : ℚ) < x * 32767 + 1 := Int.ceil_lt_add_one _
    rw [ht, abs_le]
    constructor <;> [nlinarith; nlinarith]

/-- C2, counterexample: at x = 65533/65536 (a number exactly representable in
float32) the round-trip error is 3/65536, which exceeds the claimed
quantization-error bound 1/32767. -/
theorem C2_quantization_cex :
    -1 ≤ (65533 / 65536 : ℚ) ∧ (65533 / 65536 : ℚ) ≤ 1 ∧
      1 / 32767 < roundTripErr (65533 / 65536) := by
  refine ⟨by norm_num, by norm_num, ?_⟩
  rw [roundTripErr_eq _ (by norm_num) (by norm_num)]
  have ht : truncQ (65533 / 65536 * 32767) = 32765 := by
    unfold truncQ
    rw [if_pos (by norm_num)]
    rw [show (65533 / 65536 * 32767 : ℚ) = 2147319811 / 65536 by norm_num]
    rw [Int.floor_eq_iff]
    norm_num
  rw [ht]
  rw [show ((32765 : ℤ) : ℚ) / 32768 - 65533 / 65536 = -(3 / 65536) by norm_num]
  rw [abs_neg, abs_of_nonneg (by norm_num)]
  norm_num

/-- C2, witness: the corrected bound instantiated at x = 1/2. -/
theorem C2_roundtrip_bound_witness :
    (-1 ≤ (1 / 2 : ℚ) ∧ (1 / 2 : ℚ) ≤ 1) ∧ roundTripErr (1 / 2) ≤ 1 / 16384 :=
  ⟨⟨by norm_num, by norm_num⟩, C2_roundtrip_bound (1 / 2) (by norm_num) (by norm_num)⟩

/-- The base64 alphabet; the character for a 6-bit value. -/
def b64Char (n : ℕ) : Char :=
  "ABCDEFGHIJKLMNOPQRSTUVWXYZabcdefghijklmnopqrstuvwxyz0123456789+/".toList.getD n 'A'

/-- The 6-bit value of a base64 alphabet character, none for every other
character.  Models the table_a2b_base64 lookup table of CPython's binascii
module. -/
def b64CharVal (c : Char) : Option ℕ :=
  if 65 ≤ c.toNat ∧ c.toNat ≤ 90 then some (c.toNat - 65)
  else if 97 ≤ c.toNat ∧ c.toNat ≤ 122 then some (c.toNat - 97 + 26)
  else if 48 ≤ c.toNat ∧ c.toNat ≤ 57 then some (c.toNat - 48 + 52)
  else if c = '+' then some 62
  else if c = '/' then some 63
  else none

/-- The two little-endian bytes of a 16-bit signed sample, as produced by
numpy's tobytes on an int16 array. -/
def int16ToBytesLE (v : ℤ) : List ℕ :=
  [(v % 65536).toNat % 256, (v % 65536).toNat / 256]

/-- Model of audio_data.tobytes() on an int16 array (little-endian byte
serialization). -/
def tobytes (audio_data : List ℤ) : List ℕ :=
  audio_data.flatMap int16ToBytesLE

/-- Model of base64.b64encode: encode a byte list three bytes at a time into
four alphabet characters, padding a final partial group with '='. -/
def b64encodeBytes : List ℕ → List Char
  | b0 :: b1 :: b2 :: rest =>
      b64Char (b0 / 4) :: b64Char (b0 % 4 * 16 + b1 / 16) ::
        b64Char (b1 % 16 * 4 + b2 / 64) :: b64Char (b2 % 64) :: b64encodeBytes rest
  | [b0, b1] => [b64Char (b0 / 4), b64Char (b0 % 4 * 16 + b1 / 16), b64Char (b1 % 16 * 4), '=']
  | [b0] => [b64Char (b0 / 4), b64Char (b0 % 4 * 16), '=', '=']
  | [] => []

/-- Model of `encode_audio_to_base64` (audio_utils.py lines 63-80):
serialize the int16 samples as little-endian bytes and base64-encode them. -/
def encode_audio_to_base64 (audio_data : List ℤ) : String :=
  String.mk (b64encodeBytes (tobytes audio_data))

/-- The failures surfaced by `decode_base64_to_audio`: the ValueError raised
by str.encode('ascii') on non-ASCII input, binascii.Error for a malformed
base64 payload, and the ValueError raised by np.frombuffer when the byte
count is not a multiple of the two-byte sample width. -/
inductive DecodeError where
  | nonAscii : DecodeError
  | badBase64 : DecodeError
  | oddLength : DecodeError
deriving DecidableEq

/-- The character loop of CPython's binascii.a2b_base64 with strict_mode off
(the default used by base64.b64decode): quad_pos cycles through 0-3 as data
characters arrive, leftchar holds the pending bits, pads counts a trailing
pad run.  A pad at quad_pos ≥ 2 completing a group ends decoding successfully
and discards the rest of the input; characters outside the alphabet are
discarded; input ending mid-group is an error. -/
def a2bLoop : List Char → ℕ → ℕ → ℕ → List ℕ → Except DecodeError (List ℕ)
  | [], qp, _, _, acc => if qp = 0 then .ok acc else .error .badBase64
  | c :: rest, qp, leftchar, pads, acc =>
    if c = '=' then
      if 2 ≤ qp then
        if 4 ≤ qp + (pads + 1) then .ok acc
        else a2bLoop rest qp leftchar (pads + 1) acc
      else a2bLoop rest qp leftchar pads acc
    else
      match b64CharVal c with
      | none => a2bLoop rest qp leftchar pads acc
      | some v =>
        match qp with
        | 0 => a2bLoop rest 1 v 0 acc
        | 1 => a2bLoop rest 2 (v % 16) 0 (acc ++ [leftchar * 4 + v / 16])
        | 2 => a2bLoop rest 3 (v % 4) 0 (acc ++ [leftchar * 16 + v / 4])
        | _ => a2bLoop rest 0 0 0 (acc ++ [leftchar * 64 + v])

/-- Model of base64.b64decode on a Python str: reject non-ASCII input (the
str.encode('ascii') step), then run the lenient binascii loop. -/
def b64decode (s : String) : Except DecodeError (List ℕ) :=
  if s.toList.all (fun c => c.toNat < 128) then a2bLoop s.toList 0 0 0 []
  else .error .nonAscii

/-- Two's-complement reading of a 16-bit unsigned value as a signed sample. -/
def toSigned16 (u : ℕ) : ℤ :=
  if u < 32768 then (u : ℤ) else (u : ℤ) - 65536

/-- Model of np.frombuffer(_, dtype=np.int16): read little-endian byte pairs,
none when the byte count is odd (numpy raises ValueError there). -/
def bytesToInt16LE : List ℕ → Option (List ℤ)
  | [] => some []
  | [_] => none
  | lo :: hi :: rest => (bytesToInt16LE rest).map fun l => toSigned16 (lo + 256 * hi) :: l

/-- Model of `decode_base64_to_audio` (audio_utils.py lines 83-100):
base64-decode the string, then reinterpret the bytes as little-endian int16
samples. -/
def decode_base64_to_audio (base64_str : String) : Except DecodeError (List ℤ) :=
  match b64decode base64_str with
  | .error e => .error e
  | .ok audio_bytes =>
    match bytesToInt16LE audio_bytes with
    | some samples => .ok samples
    | none => .error .oddLength

theorem b64CharVal_b64Char : ∀ n, n < 64 → b64CharVal (b64Char n) = some n := by
  decide

theorem b64Char_ascii (n : ℕ) : (b64Char n).toNat < 128 := by
  rcases lt_or_ge n 64 with h | h
  · revert h
    revert n
    decide
  · unfold b64Char
    rw [List.getD_eq_default]
    · decide
    · exact le_trans (by decide) h

theorem b64CharVal_eq_pad {c : Char} {v : ℕ} (hc : b64CharVal c = some v) : c ≠ '=' := by
  intro h
  subst h
  rw [show b64CharVal '=' = none from by decide] at hc
  cases hc

theorem a2bLoop_data0 {c : Char} {v : ℕ} (hc : b64CharVal c = some v)
    (rest : List Char) (l p : ℕ) (acc : List ℕ) :
    a2bLoop (c :: rest) 0 l p acc = a2bLoop rest 1 v 0 acc := by
  simp [a2bLoop, b64CharVal_eq_pad hc, hc]

theorem a2bLoop_data1 {c : Char} {v : ℕ} (hc : b64CharVal c = some v)
    (rest : List Char) (l p : ℕ) (acc : List ℕ) :
    a2bLoop (c :: rest) 1 l p acc = a2bLoop rest 2 (v % 16) 0 (acc ++ [l * 4 + v / 16]) := by
  simp [a2bLoop, b64CharVal_eq_pad hc, hc]

theorem a2bLoop_data2 {c : Char} {v : ℕ} (hc : b64CharVal c = some v)
    (rest : List Char) (l p : ℕ) (acc : List ℕ) :
    a2bLoop (c :: rest) 2 l p acc = a2bLoop rest 3 (v % 4) 0 (acc ++ [l * 16 + v / 4]) := by
  simp [a2bLoop, b64CharVal_eq_pad hc, hc]

theorem a2bLoop_data3 {c : Char} {v : ℕ} (hc : b64CharVal c = some v)
    (rest : List Char) (l p : ℕ) (acc : List ℕ) :
    a2bLoop (c :: rest) 3 l p acc = a2bLoop rest 0 0 0 (acc ++ [l * 64 + v]) := by
  simp [a2bLoop, b64CharVal_eq_pad hc, hc]

theorem a2bLoop_pad2_first (rest : List Char) (l : ℕ) (acc : List ℕ) :
    a2bLoop ('=' :: rest) 2 l 0 acc = a2bLoop rest 2 l 1 acc := by
  simp [a2bLoop]

theorem a2bLoop_pad2_second (rest : List Char) (l : ℕ) (acc : List ℕ) :
    a2bLoop ('=' :: rest) 2 l 1 acc = .ok acc := by
  simp [a2bLoop]

theorem a2bLoop_pad3 (rest : List Char) (l : ℕ) (acc : List ℕ) :
    a2bLoop ('=' :: rest) 3 l 0 acc = .ok acc := by
  simp [a2bLoop]

theorem a2bLoop_nil (acc : List ℕ) : a2bLoop [] 0 0 0 acc = .ok acc := by
  simp [a2bLoop]

/-- Decoding the base64 encoding of a byte list recovers exactly those bytes,
for any starting accumulator. -/
theorem a2bLoop_encode (bs : List ℕ) (hbs : ∀ b ∈ bs, b < 256) (acc : List ℕ) :
    a2bLoop (b64encodeBytes bs) 0 0 0 acc = .ok (acc ++ bs) := by
  induction bs using b64encodeBytes.induct generalizing acc with
  | case1 b0 b1 b2 rest ih =>
    have hb0 : b0 < 256 := hbs b0 (by simp)
    have hb1 : b1 < 256 := hbs b1 (by simp)
    have hb2 : b2 < 256 := hbs b2 (by simp)
    have hrest : ∀ b ∈ rest, b < 256 := fun b hb => hbs b (by simp [hb])
    rw [show b64encodeBytes (b0 :: b1 :: b2 :: rest) =
        b64Char (b0 / 4) :: b64Char (b0 % 4 * 16 + b1 / 16) ::
          b64Char (b1 % 16 * 4 + b2 / 64) :: b64Char (b2 % 64) :: b64encodeBytes rest from rfl]
    rw [a2bLoop_data0 (b64CharVal_b64Char _ (by omega)),
        a2bLoop_data1 (b64CharVal_b64Char _ (by omega)),
        a2bLoop_data2 (b64CharVal_b64Char _ (by omega)),
        a2bLoop_data3 (b64CharVal_b64Char _ (by omega))]
    rw [ih hrest]
    rw [show b0 / 4 * 4 + (b0 % 4 * 16 + b1 / 16) / 16 = b0 from by omega]
    rw [show (b0 % 4 * 16 + b1 / 16) % 16 * 16 + (b1 % 16 * 4 + b2 / 64) / 4 = b1 from by omega]
    rw [show (b1 % 16 * 4 + b2 / 64) % 4 * 64 + b2 % 64 = b2 from by omega]
    simp
  | case2 b0 b1 =>
    have hb0 : b0 < 256 := hbs b0 (by simp)
    have hb1 : b1 < 256 := hbs b1 (by simp)
    rw [show b64encodeBytes [b0, b1] =
        [b64Char (b0 / 4), b64Char (b0 % 4 * 16 + b1 / 16), b64Char (b1 % 16 * 4), '='] from rfl]
    rw [a2bLoop_data0 (b64CharVal_b64Char _ (by omega)),
        a2bLoop_data1 (b64CharVal_b64Char _ (by omega)),
        a2bLoop_data2 (b64CharVal_b64Char _ (by omega)),
        a2bLoop_pad3]
    rw [show b0 / 4 * 4 + (b0 % 4 * 16 + b1 / 16) / 16 = b0 from by omega]
    rw [show (b0 % 4 * 16 + b1 / 16) % 16 * 16 + b1 % 16 * 4 / 4 = b1 from by omega]
    simp
  | case3 b0 =>
    have hb0 : b0 < 256 := hbs b0 (by simp)
    rw [show b64encodeBytes [b0] =
        [b64Char (b0 / 4), b64Char (b0 % 4 * 16), '=', '='] from rfl]
    rw [a2bLoop_data0 (b64CharVal_b64Char _ (by omega)),
        a2bLoop_data1 (b64CharVal_b64Char _ (by omega)),
        a2bLoop_pad2_first, a2bLoop_pad2_second]
    rw [show b0 / 4 * 4 + b0 % 4 * 16 / 16 = b0 from by omega]
  | case4 =>
    rw [show b64encodeBytes [] = [] from rfl, a2bLoop_nil]
    simp

theorem b64encodeBytes_all_ascii (bs : List ℕ) :
    (b64encodeBytes bs).all (fun c => c.toNat < 128) = true := by
  induction bs using b64encodeBytes.induct <;>
    simp_all [b64encodeBytes, b64Char_ascii]

theorem tobytes_lt_256 (l : List ℤ) : ∀ b ∈ tobytes l, b < 256 := by
  intro b hb
  unfold tobytes at hb
  rw [List.mem_flatMap] at hb
  obtain ⟨v, _, hbv⟩ := hb
  unfold int16ToBytesLE at hbv
  have hu : (v % 65536).toNat < 65536 := by omega
  simp only [List.mem_cons, List.mem_singleton, List.not_mem_nil, or_false] at hbv
  rcases hbv with h | h <;> omega

theorem bytesToInt16LE_tobytes (l : List ℤ) (h : ∀ v ∈ l, -32768 ≤ v ∧ v < 32768) :
    bytesToInt16LE (tobytes l) = some l := by
  induction l with
  | nil => rfl
  | cons v tl ih =>
    have hv := h v (by simp)
    have htl : ∀ w ∈ tl, -32768 ≤ w ∧ w < 32768 := fun w hw => h w (by simp [hw])
    show bytesToInt16LE (int16ToBytesLE v ++ tobytes tl) = some (v :: tl)
    rw [show int16ToBytesLE v ++ tobytes tl =
        (v % 65536).toNat % 256 :: (v % 65536).toNat / 256 :: tobytes tl from rfl]
    rw [show bytesToInt16LE ((v % 65536).toNat % 256 :: (v % 65536).toNat / 256 :: tobytes tl) =
        (bytesToInt16LE (tobytes tl)).map
          (fun l => toSigned16 ((v % 65536).toNat % 256 + 256 * ((v % 65536).toNat / 256)) :: l)
        from rfl]
    rw [ih htl]
    rw [show (v % 65536).toNat % 256 + 256 * ((v % 65536).toNat / 256) = (v % 65536).toNat
        from by omega]
    have : toSigned16 (v % 65536).toNat = v := by
      unfold toSigned16
      split <;> omega
    rw [this]
    rfl

/-- C5, confirmed: decoding the base64 encoding of any fixed-point (16-bit
signed) sample buffer recovers the buffer element for element. -/
theorem C5_decode_encode (buf : List ℤ) (hbuf : ∀ v ∈ buf, -32768 ≤ v ∧ v < 32768) :
    decode_base64_to_audio (encode_audio_to_base64 buf) = .ok buf := by
  have henc : b64decode (encode_audio_to_base64 buf) = .ok (tobytes buf) := by
    unfold b64decode encode_audio_to_base64
    rw [show (String.mk (b64encodeBytes (tobytes buf))).toList = b64encodeBytes (tobytes buf)
        from rfl]
    rw [if_pos (b64encodeBytes_all_ascii _)]
    rw [a2bLoop_encode (tobytes buf) (tobytes_lt_256 buf) []]
    simp
  unfold decode_base64_to_audio
  rw [henc]
  show (match bytesToInt16LE (tobytes buf) with
    | some samples => Except.ok samples
    | none => Except.error DecodeError.oddLength) = Except.ok buf
  rw [bytesToInt16LE_tobytes buf hbuf]

/-- C5, witness: the round trip evaluated at the docstring example buffer
[100, -100, 200]. -/
theorem C5_decode_encode_witness :
    decode_base64_to_audio (encode_audio_to_base64 [100, -100, 200]) = .ok [100, -100, 200] :=
  C5_decode_encode [100, -100, 200] (by decide)

/-- Modelled from the spec's words: a string is valid base64 (RFC sense) when
it consists of four-character groups over the base64 alphabet, the final group
alternatively ending in one or two padding characters.  This is the comparison
definition for C1; the code's own lenient parse is `b64decode` above. -/
def validB64Groups : List Char → Bool
  | [] => true
  | [c1, c2, c3, c4] =>
      (b64CharVal c1).isSome && (b64CharVal c2).isSome &&
        (((b64CharVal c3).isSome && (b64CharVal c4).isSome) ||
          ((b64CharVal c3).isSome && (c4 = '=')) ||
          ((c3 = '=') && (c4 = '=')))
  | c1 :: c2 :: c3 :: c4 :: rest =>
      (b64CharVal c1).isSome && (b64CharVal c2).isSome &&
        (b64CharVal c3).isSome && (b64CharVal c4).isSome && validB64Groups rest
  | _ => false

/-- Spec-side validity of a base64 transport string. -/
def isValidBase64 (s : String) : Bool := validB64Groups s.toList

theorem andE {a b : Bool} (h : (a && b) = true) : a = true ∧ b = true := by
  simpa using h

theorem orE {a b : Bool} (h : (a || b) = true) : a = true ∨ b = true := by
  simpa using h

theorem b64CharVal_ascii {c : Char} {v : ℕ} (hc : b64CharVal c = some v) :
    c.toNat < 128 := by
  unfold b64CharVal at hc
  split_ifs at hc with h1 h2 h3 h4 h5
  · omega
  · omega
  · omega
  · subst h4
    decide
  · subst h5
    decide

theorem validB64Groups_ascii :
    ∀ l, validB64Groups l = true → l.all (fun c => c.toNat < 128) = true := by
  intro l
  induction l using validB64Groups.induct with
  | case1 => intro _; rfl
  | case2 c1 c2 c3 c4 =>
    intro h
    rw [validB64Groups] at h
    obtain ⟨h12, hrest⟩ := andE h
    obtain ⟨h1, h2⟩ := andE h12
    obtain ⟨v1, hv1⟩ := Option.isSome_iff_exists.mp h1
    obtain ⟨v2, hv2⟩ := Option.isSome_iff_exists.mp h2
    have ha1 := b64CharVal_ascii hv1
    have ha2 := b64CharVal_ascii hv2
    rcases orE hrest with hAB | hC
    · rcases orE hAB with hA | hB
      · obtain ⟨h3, h4⟩ := andE hA
        obtain ⟨v3, hv3⟩ := Option.isSome_iff_exists.mp h3
        obtain ⟨v4, hv4⟩ := Option.isSome_iff_exists.mp h4
        simp [b64CharVal_ascii hv3, b64CharVal_ascii hv4, ha1, ha2]
      · obtain ⟨h3, h4⟩ := andE hB
        obtain ⟨v3, hv3⟩ := Option.isSome_iff_exists.mp h3
        have hc4 : c4 = '=' := of_decide_eq_true h4
        subst hc4
        simp [b64CharVal_ascii hv3, ha1, ha2]
    · obtain ⟨h3, h4⟩ := andE hC
      have hc3 : c3 = '=' := of_decide_eq_true h3
      have hc4 : c4 = '=' := of_decide_eq_true h4
      subst hc3
      subst hc4
      simp [ha1, ha2]
  | case3 c1 c2 c3 c4 rest hne ih =>
    intro h
    rw [validB64Groups] at h
    obtain ⟨h1234, hv⟩ := andE h
    obtain ⟨h123, h4⟩ := andE h1234
    obtain ⟨h12, h3⟩ := andE h123
    obtain ⟨h1, h2⟩ := andE h12
    obtain ⟨v1, hv1⟩ := Option.isSome_iff_exists.mp h1
    obtain ⟨v2, hv2⟩ := Option.isSome_iff_exists.mp h2
    obtain ⟨v3, hv3⟩ := Option.isSome_iff_exists.mp h3
    obtain ⟨v4, hv4⟩ := Option.isSome_iff_exists.mp h4
    simp [b64CharVal_ascii hv1, b64CharVal_ascii hv2, b64CharVal_ascii hv3,
      b64CharVal_ascii hv4, ih hv]
    exact hne
  | case4 x h1 h2 h3 =>
    intro h
    simp [validB64Groups] at h

/-- The lenient decode loop accepts every RFC-valid base64 char list. -/
theorem a2bLoop_valid :
    ∀ l, validB64Groups l = true → ∀ acc, ∃ bs, a2bLoop l 0 0 0 acc = .ok bs := by
  intro l
  induction l using validB64Groups.induct with
  | case1 => intro _ acc; exact ⟨acc, a2bLoop_nil acc⟩
  | case2 c1 c2 c3 c4 =>
    intro h acc
    rw [validB64Groups] at h
    obtain ⟨h12, hrest⟩ := andE h
    obtain ⟨h1, h2⟩ := andE h12
    obtain ⟨v1, hv1⟩ := Option.isSome_iff_exists.mp h1
    obtain ⟨v2, hv2⟩ := Option.isSome_iff_exists.mp h2
    rw [a2bLoop_data0 hv1, a2bLoop_data1 hv2]
    rcases orE hrest with hAB | hC
    · rcases orE hAB with hA | hB
      · obtain ⟨h3, h4⟩ := andE hA
        obtain ⟨v3, hv3⟩ := Option.isSome_iff_exists.mp h3
        obtain ⟨v4, hv4⟩ := Option.isSome_iff_exists.mp h4
        rw [a2bLoop_data2 hv3, a2bLoop_data3 hv4, a2bLoop_nil]
        exact ⟨_, rfl⟩
      · obtain ⟨h3, h4⟩ := andE hB
        obtain ⟨v3, hv3⟩ := Option.isSome_iff_exists.mp h3
        have hc4 : c4 = '=' := of_decide_eq_true h4
        subst hc4
        rw [a2bLoop_data2 hv3, a2bLoop_pad3]
        exact ⟨_, rfl⟩
    · obtain ⟨h3, h4⟩ := andE hC
      have hc3 : c3 = '=' := of_decide_eq_true h3
      have hc4 : c4 = '=' := of_decide_eq_true h4
      subst hc3
      subst hc4
      rw [a2bLoop_pad2_first, a2bLoop_pad2_second]
      exact ⟨_, rfl⟩
  | case3 c1 c2 c3 c4 rest hne ih =>
    intro h acc
    rw [validB64Groups] at h
    obtain ⟨h1234, hv⟩ := andE h
    obtain ⟨h123, h4⟩ := andE h1234
    obtain ⟨h12, h3⟩ := andE h123
    obtain ⟨h1, h2⟩ := andE h12
    obtain ⟨v1, hv1⟩ := Option.isSome_iff_exists.mp h1
    obtain ⟨v2, hv2⟩ := Option.isSome_iff_exists.mp h2
    obtain ⟨v3, hv3⟩ := Option.isSome_iff_exists.mp h3
    obtain ⟨v4, hv4⟩ := Option.isSome_iff_exists.mp h4
    rw [a2bLoop_data0 hv1, a2bLoop_data1 hv2, a2bLoop_data2 hv3, a2bLoop_data3 hv4]
    · exact ih hv _
    · exact hne
  | case4 x h1 h2 h3 =>
    intro h
    simp [validB64Groups] at h

theorem bytesToInt16LE_none_iff :
    ∀ bs, bytesToInt16LE bs = none ↔ bs.length % 2 = 1 := by
  intro bs
  induction bs using bytesToInt16LE.induct with
  | case1 => simp [bytesToInt16LE]
  | case2 b => simp [bytesToInt16LE]
  | case3 lo hi rest ih =>
    rw [show bytesToInt16LE (lo :: hi :: rest) =
        (bytesToInt16LE rest).map (fun l => toSigned16 (lo + 256 * hi) :: l) from rfl]
    rw [Option.map_eq_none']
    rw [ih]
    constructor <;> (intro h; simp [List.length_cons] at *; omega)

/-- C1, amended claim: on every RFC-valid base64 input the decode never fails
at the base64 stage, fails if and only if the decoded byte count is odd, and
the only surfaced error is the misaligned-length one.  The claimed rejection
of all invalid base64 input is refuted by `C1_invalid_accept_cex`. -/
theorem C1_valid_decode (s : String) (h : isValidBase64 s = true) :
    ∃ bs, b64decode s = .ok bs ∧
      ((∃ e, decode_base64_to_audio s = .error e) ↔ bs.length % 2 = 1) ∧
      ∀ e, decode_base64_to_audio s = .error e → e = DecodeError.oddLength := by
  have hascii : s.toList.all (fun c => c.toNat < 128) = true := validB64Groups_ascii _ h
  obtain ⟨bs, hbs⟩ := a2bLoop_valid s.toList h []
  have hdec : b64decode s = .ok bs := by
    unfold b64decode
    rw [if_pos hascii]
    exact hbs
  have hshape : decode_base64_to_audio s = (match bytesToInt16LE bs with
      | some samples => Except.ok samples
      | none => Except.error DecodeError.oddLength) := by
    unfold decode_base64_to_audio
    rw [hdec]
  refine ⟨bs, hdec, ?_, ?_⟩
  · rcases hB : bytesToInt16LE bs with _ | l
    · rw [(bytesToInt16LE_none_iff bs).mp hB]
      rw [hB] at hshape
      exact ⟨fun _ => rfl, fun _ => ⟨DecodeError.oddLength, hshape⟩⟩
    · constructor
      · intro ⟨e, he⟩
        rw [hB] at hshape
        rw [hshape] at he
        cases he
      · intro hodd
        exact absurd ((bytesToInt16LE_none_iff bs).mpr hodd) (by rw [hB]; simp)
  · intro e he
    rcases hB : bytesToInt16LE bs with _ | l
    · rw [hB] at hshape
      rw [hshape] at he
      cases he
      rfl
    · rw [hB] at hshape
      rw [hshape] at he
      cases he

/-- C1, counterexample: the string of four hash marks is not valid base64,
yet the decoder accepts it and returns the empty buffer (the lenient parse
discards characters outside the alphabet), contradicting the claim that every
non-base64 input fails with DecodeError. -/
theorem C1_invalid_accept_cex :
    decode_base64_to_audio (String.mk ['#', '#', '#', '#']) = .ok [] ∧
      isValidBase64 (String.mk ['#', '#', '#', '#']) = false :=
  ⟨rfl, rfl⟩

/-- C1, witness: the amended claim instantiated at the valid string AAA=,
which decodes to two bytes and hence one sample. -/
theorem C1_valid_decode_witness :
    ∃ bs, b64decode (String.mk ['A', 'A', 'A', '=']) = .ok bs ∧
      ((∃ e, decode_base64_to_audio (String.mk ['A', 'A', 'A', '=']) = .error e) ↔
        bs.length % 2 = 1) ∧
      ∀ e, decode_base64_to_audio (String.mk ['A', 'A', 'A', '=']) = .error e →
        e = DecodeError.oddLength :=
  C1_valid_decode (String.mk ['A', 'A', 'A', '=']) (by decide)

/-- Round half to even, the IEEE-754 default tie-breaking rule. -/
def roundHalfEven (q : ℚ) : ℤ :=
  if q - ⌊q⌋ < 1 / 2 then ⌊q⌋
  else if 1 / 2 < q - ⌊q⌋ then ⌊q⌋ + 1
  else if ⌊q⌋ % 2 = 0 then ⌊q⌋ else ⌊q⌋ + 1

/-- IEEE-754 binary64 rounding of an exact rational: round to the nearest
value with a 53-bit significand, ties to even.  Overflow and subnormals are
not modelled (irrelevant at the magnitudes arising here).  This model was
checked against CPython float arithmetic on 50000 random rate triples. -/
def fl53 (q : ℚ) : ℚ :=
  if q = 0 then 0
  else
    (if 0 < q then 1 else -1) *
      (roundHalfEven (|q| * 2 ^ (52 - Int.log 2 |q|)) : ℚ) * 2 ^ (-(52 - Int.log 2 |q|))

/-- Model of np.interp at one point t against sample points 0, ..., n-1 with
values fp (n = fp.length): clamp outside the range, linear interpolation
between the neighbouring integer positions inside. -/
def interpAt (fp : List ℚ) (t : ℚ) : ℚ :=
  if t ≤ 0 then fp.getD 0 0
  else if ((fp.length : ℚ) - 1) ≤ t then fp.getD (fp.length - 1) 0
  else
    fp.getD (⌊t⌋).toNat 0 +
      (t - ((⌊t⌋).toNat : ℚ)) * (fp.getD ((⌊t⌋).toNat + 1) 0 - fp.getD (⌊t⌋).toNat 0)

/-- Model of np.linspace(0, n - 1, m): the i-th of m evenly spaced points over
[0, n - 1] (numpy emits the single point 0 when m = 1). -/
def linspacePt (n m i : ℕ) : ℚ :=
  if m ≤ 1 then 0 else (i : ℚ) * ((n : ℚ) - 1) / ((m : ℚ) - 1)

/-- Model of `resample_audio` (audio_utils.py lines 103-131): identity on
equal rates; otherwise duration = len/orig_sr (a float64 division, hence
fl53), new_length = int(duration * target_sr) (float64 product, truncated),
and np.interp evaluated on np.linspace(0, len - 1, new_length).  np.interp
raises ValueError when its sample-point array is empty, i.e. when the input
buffer is empty; interpolated values are modelled exactly (their float64
rounding does not affect any claim, which concern only lengths and errors). -/
def resample_audio (audio_data : List ℚ) (orig_sr target_sr : ℕ) :
    Except String (List ℚ) :=
  if orig_sr = target_sr then .ok audio_data
  else
    if audio_data.length = 0 then .error "array of sample points is empty"
    else .ok ((List.range
      ((truncQ (fl53 (fl53 ((audio_data.length : ℚ) / (orig_sr : ℚ)) * (target_sr : ℚ)))).toNat)).map
        fun i => interpAt audio_data
          (linspacePt audio_data.length
            ((truncQ (fl53 (fl53 ((audio_data.length : ℚ) / (orig_sr : ℚ)) * (target_sr : ℚ)))).toNat)
            i))

/-- Model of `convert_to_gemini_input_format` (audio_utils.py lines 134-167)
on floating-point input, the input_dtype='float32' path with which all claims
are concerned: resample when the rate differs from INPUT_SAMPLE_RATE, convert
to int16, base64-encode.  A resample exception propagates. -/
def convert_to_gemini_input_format (audio_data : List ℚ) (current_sr : ℕ) :
    Except String String :=
  if current_sr ≠ INPUT_SAMPLE_RATE then
    match resample_audio audio_data current_sr INPUT_SAMPLE_RATE with
    | .error e => .error e
    | .ok resampled => .ok (encode_audio_to_base64 (float32_to_int16 resampled))
  else .ok (encode_audio_to_base64 (float32_to_int16 audio_data))

/-- C3, confirmed: the float samples [0.5, -0.5, 0.0] at 16000 Hz convert to
a transport string that decodes back to [16383, -16383, 0], within distance 1
per sample of the spec's approximate target [16383, -16384, 0].  (The exact
value of the second sample is -16383: -0.5 * 32767 = -16383.5 truncates
toward zero.) -/
theorem C3_end_to_end :
    (convert_to_gemini_input_format [1 / 2, -1 / 2, 0] 16000).map decode_base64_to_audio =
      .ok (.ok [16383, -16383, 0]) ∧
    (List.zip [(16383 : ℤ), -16383, 0] [(16383 : ℤ), -16384, 0]).all
      (fun p => (p.1 - p.2).natAbs ≤ 1) = true := by
  have hfa : truncQ (clip (-1) 1 (1 / 2) * 32767) = 16383 := by
    rw [clip_eq_self (by norm_num) (by norm_num)]
    unfold truncQ
    rw [if_pos (by norm_num)]
    rw [show (1 / 2 * 32767 : ℚ) = 32767 / 2 by norm_num]
    rw [Int.floor_eq_iff]
    norm_num
  have hfb : truncQ (clip (-1) 1 (-1 / 2) * 32767) = -16383 := by
    rw [clip_eq_self (by norm_num) (by norm_num)]
    unfold truncQ
    rw [if_neg (by norm_num)]
    rw [show (-1 / 2 * 32767 : ℚ) = -(32767 / 2) by norm_num]
    rw [Int.ceil_eq_iff]
    norm_num
  have hfc : truncQ (clip (-1) 1 0 * 32767) = 0 := by
    rw [clip_eq_self (by norm_num) (by norm_num)]
    unfold truncQ
    rw [if_pos (by norm_num)]
    norm_num
  have h1 : float32_to_int16 [1 / 2, -1 / 2, 0] = [16383, -16383, 0] := by
    unfold float32_to_int16
    simp only [List.map]
    rw [hfa, hfb, hfc]
  have h2 : convert_to_gemini_input_format [1 / 2, -1 / 2, 0] 16000 =
      .ok (encode_audio_to_base64 [16383, -16383, 0]) := by
    unfold convert_to_gemini_input_format
    rw [if_neg (by decide)]
    rw [h1]
  refine ⟨?_, by decide⟩
  rw [h2]
  rfl

/-- C8, the resampler is not total on its documented domain: on the empty
buffer with distinct rates the code reaches np.interp with an empty
sample-point array, which raises ValueError, where the spec requires every
operation to be a total computation (an empty resample should yield the empty
buffer, newLength = 0). -/
theorem C8_resample_empty_raises :
    resample_audio [] 16000 24000 = .error "array of sample points is empty" := rfl

theorem roundHalfEven_ge_floor (q : ℚ) : ⌊q⌋ ≤ roundHalfEven q := by
  unfold roundHalfEven
  split_ifs <;> omega

/-- C4, amended claim: for distinct positive rates and a nonempty buffer the
resampled length is the truncation of the double-precision computation
fl53(fl53(len/sourceRate) * targetRate), which differs from the exact
rational floor on inputs where the float64 rounding crosses an integer
boundary (`C4_resample_length_cex`); on the empty buffer the call raises
instead of returning a length. -/
theorem C4_resample_length (x : List ℚ) (a b : ℕ) (_ha : 0 < a) (_hb : 0 < b)
    (hab : a ≠ b) (hx : x ≠ []) :
    (resample_audio x a b).map List.length =
      .ok ((truncQ (fl53 (fl53 ((x.length : ℚ) / (a : ℚ)) * (b : ℚ)))).toNat) := by
  unfold resample_audio
  rw [if_neg hab, if_neg (fun h => hx (List.length_eq_zero.mp h))]
  simp [Except.map]

/-- C4, counterexample: a 49-sample buffer resampled from 3 Hz to 15 Hz has
245 samples by the exact rational floor (49/3*15 = 245 exactly), but the code
computes (49/3)*15 in float64 as 244.99999999999997 and truncates to 244. -/
theorem int_log2_eval (q : ℚ) (e : ℕ) (hq : 0 < q) (h1 : (2 : ℚ) ^ e ≤ q)
    (h2 : q < 2 ^ (e + 1)) : Int.log 2 q = e := by
  have hlo := Int.zpow_log_le_self (b := 2) (R := ℚ) (by norm_num) hq
  have hhi := Int.lt_zpow_succ_log_self (b := 2) (R := ℚ) (by norm_num) q
  push_cast at hlo hhi
  by_contra hne
  rcases lt_or_gt_of_ne hne with hlt | hgt
  · have hle : Int.log 2 q + 1 ≤ (e : ℤ) := by omega
    have hz : (2 : ℚ) ^ (Int.log 2 q + 1) ≤ (2 : ℚ) ^ (e : ℤ) :=
      zpow_le_zpow_right₀ (by norm_num) hle
    rw [zpow_natCast] at hz
    linarith
  · have hle : (e : ℤ) + 1 ≤ Int.log 2 q := by omega
    have hz : (2 : ℚ) ^ ((e : ℤ) + 1) ≤ (2 : ℚ) ^ Int.log 2 q :=
      zpow_le_zpow_right₀ (by norm_num) hle
    rw [show ((e : ℤ) + 1) = ((e + 1 : ℕ) : ℤ) by push_cast; ring, zpow_natCast] at hz
    linarith

theorem fl53_eval_pos (q : ℚ) (e : ℕ) (m : ℤ) (hq : 0 < q)
    (hlog : Int.log 2 q = e)
    (hrhe : roundHalfEven (q * 2 ^ ((52 : ℤ) - (e : ℕ))) = m) :
    fl53 q = (m : ℚ) * 2 ^ (-((52 : ℤ) - (e : ℕ))) := by
  unfold fl53
  rw [if_neg (ne_of_gt hq), if_pos hq, abs_of_pos hq, hlog, hrhe, one_mul]

/-- C4, counterexample: a 49-sample buffer resampled from 3 Hz to 15 Hz has
245 samples by the exact rational floor (49/3*15 = 245 exactly), but the code
computes (49/3)*15 in float64 as 244.99999999999997 and truncates to 244. -/
theorem C4_resample_length_cex :
    (resample_audio (List.replicate 49 0) 3 15).map List.length = .ok 244 ∧
      ((List.replicate 49 (0 : ℚ)).length : ℚ) / 3 * 15 = 245 := by
  have hm1 : roundHalfEven ((49 : ℚ) / 3 * 2 ^ ((52 : ℤ) - ((4 : ℕ) : ℕ))) =
      4597424619607381 := by
    rw [show ((52 : ℤ) - ((4 : ℕ) : ℕ)) = ((48 : ℕ) : ℤ) by norm_num, zpow_natCast]
    rw [show ((49 : ℚ) / 3 * 2 ^ (48 : ℕ)) = 13792273858822144 / 3 by norm_num]
    unfold roundHalfEven
    have hf : ⌊(13792273858822144 / 3 : ℚ)⌋ = 4597424619607381 := by
      rw [Int.floor_eq_iff]
      norm_num
    rw [hf, if_pos (by norm_num)]
  have hq1 : fl53 ((49 : ℚ) / 3) = 4597424619607381 / 2 ^ (48 : ℕ) := by
    rw [fl53_eval_pos ((49 : ℚ) / 3) 4 4597424619607381 (by norm_num)
      (int_log2_eval _ 4 (by norm_num) (by norm_num) (by norm_num)) hm1]
    rw [show (-((52 : ℤ) - ((4 : ℕ) : ℕ))) = -((48 : ℕ) : ℤ) by norm_num]
    rw [zpow_neg, zpow_natCast]
    norm_num
  have hm2 : roundHalfEven ((4597424619607381 / 2 ^ (48 : ℕ) * 15 : ℚ) *
      2 ^ ((52 : ℤ) - ((7 : ℕ) : ℕ))) = 8620171161763839 := by
    rw [show ((52 : ℤ) - ((7 : ℕ) : ℕ)) = ((45 : ℕ) : ℤ) by norm_num, zpow_natCast]
    rw [show ((4597424619607381 / 2 ^ (48 : ℕ) * 15 : ℚ) * 2 ^ (45 : ℕ)) =
      68961369294110715 / 8 by norm_num]
    unfold roundHalfEven
    have hf2 : ⌊(68961369294110715 / 8 : ℚ)⌋ = 8620171161763839 := by
      rw [Int.floor_eq_iff]
      norm_num
    rw [hf2, if_pos (by norm_num)]
  have hq2 : fl53 (fl53 ((49 : ℚ) / 3) * 15) = 8620171161763839 / 2 ^ (45 : ℕ) := by
    rw [hq1]
    rw [fl53_eval_pos (4597424619607381 / 2 ^ (48 : ℕ) * 15 : ℚ) 7 8620171161763839
      (by positivity) (int_log2_eval _ 7 (by positivity) (by norm_num) (by norm_num)) hm2]
    rw [show (-((52 : ℤ) - ((7 : ℕ) : ℕ))) = -((45 : ℕ) : ℤ) by norm_num]
    rw [zpow_neg, zpow_natCast]
    norm_num
  have htr : truncQ (8620171161763839 / 2 ^ (45 : ℕ) : ℚ) = 244 := by
    unfold truncQ
    rw [if_pos (by positivity)]
    rw [Int.floor_eq_iff]
    norm_num
  constructor
  · unfold resample_audio
    rw [if_neg (by decide), if_neg (by simp)]
    simp only [List.length_replicate, Nat.cast_ofNat, hq2, htr]
    simp [Except.map]
  · simp only [List.length_replicate, Nat.cast_ofNat]
    norm_num

/-- C4, witness: the amended length formula instantiated at a two-sample
buffer resampled from 16000 Hz to 24000 Hz. -/
theorem C4_resample_length_witness :
    (resample_audio [0, 0] 16000 24000).map List.length =
      .ok ((truncQ (fl53 (fl53 ((([0, 0] : List ℚ).length : ℚ) / (16000 : ℚ)) *
        (24000 : ℚ)))).toNat) :=
  C4_resample_length [0, 0] 16000 24000 (by decide) (by decide) (by decide) (by decide)

/-- Model of the chunk size computation of create_audio_chunks:
int(INPUT_SAMPLE_RATE * chunk_duration_ms / 1000).  The int*int product is
exact; the division by 1000 is a float64 operation, then int() truncates. -/
def chunkSize (chunk_duration_ms : ℤ) : ℤ :=
  truncQ (fl53 ((INPUT_SAMPLE_RATE : ℚ) * (chunk_duration_ms : ℚ) / 1000))

/-- The slicing loop of create_audio_chunks for a positive chunk size k + 1:
successive slices audio_data[i : i + chunk_size] for i = 0, chunk_size, .... -/
def splitChunks (k : ℕ) : List ℤ → List (List ℤ)
  | [] => []
  | a :: rest => ((a :: rest).take (k + 1)) :: splitChunks k ((a :: rest).drop (k + 1))
termination_by l => l.length
decreasing_by simp [List.length_drop]; omega

/-- Model of `create_audio_chunks` (audio_utils.py lines 209-234):
chunk_size = int(INPUT_SAMPLE_RATE * chunk_duration_ms / 1000);
range(0, len(audio_data), chunk_size) raises ValueError on a zero step, is
empty for a negative step, and yields the slice starts for a positive one. -/
def create_audio_chunks (audio_data : List ℤ) (chunk_duration_ms : ℤ) :
    Except String (List (List ℤ)) :=
  if chunkSize chunk_duration_ms = 0 then .error "range() arg 3 must not be zero"
  else if chunkSize chunk_duration_ms < 0 then .ok []
  else .ok (splitChunks ((chunkSize chunk_duration_ms).toNat - 1) audio_data)

theorem splitChunks_join (k : ℕ) : ∀ l, (splitChunks k l).flatten = l := by
  intro l
  induction l using splitChunks.induct k with
  | case1 => simp [splitChunks]
  | case2 a rest ih =>
    rw [splitChunks, List.flatten_cons]
    rw [ih]
    exact List.take_append_drop _ _

theorem splitChunks_dropLast_length (k : ℕ) :
    ∀ l, ∀ c ∈ (splitChunks k l).dropLast, c.length = k + 1 := by
  intro l
  induction l using splitChunks.induct k with
  | case1 => simp [splitChunks]
  | case2 a rest ih =>
    intro c hc
    rw [splitChunks] at hc
    rcases hS : splitChunks k ((a :: rest).drop (k + 1)) with _ | ⟨s, ss⟩
    · rw [hS] at hc
      simp at hc
    · rw [hS] at hc
      rw [hS] at ih
      rw [show ((a :: rest).take (k + 1) :: s :: ss).dropLast =
          (a :: rest).take (k + 1) :: (s :: ss).dropLast from rfl] at hc
      rcases List.mem_cons.mp hc with rfl | hmem
      · have hd : (a :: rest).drop (k + 1) ≠ [] := by
          intro h0
          rw [h0] at hS
          simp [splitChunks] at hS
        have hlen : k + 1 ≤ (a :: rest).length := by
          by_contra hh
          exact hd (List.drop_eq_nil_of_le (by omega))
        rw [List.length_take]
        omega
      · exact ih c hmem

theorem fl53_le_neg_one {q : ℚ} (hq : q ≤ -1) : fl53 q ≤ -1 := by
  have hq0 : q ≠ 0 := by intro h; rw [h] at hq; norm_num at hq
  have hqneg : ¬ 0 < q := by intro h; linarith
  unfold fl53
  rw [if_neg hq0, if_neg hqneg]
  have ha1 : (1 : ℚ) ≤ |q| := by
    rw [abs_of_neg (by linarith)]
    linarith
  have habs : (0 : ℚ) < |q| := by linarith
  have he0 : 0 ≤ Int.log 2 |q| := by
    rw [Int.log_of_one_le_right _ ha1]
    exact Int.natCast_nonneg _
  have hpow : (2 : ℚ) ^ Int.log 2 |q| ≤ |q| := Int.zpow_log_le_self (by norm_num) habs
  have hzpos : (0 : ℚ) < 2 ^ ((52 : ℤ) - Int.log 2 |q|) := zpow_pos (by norm_num) _
  have hzpos2 : (0 : ℚ) < 2 ^ (-((52 : ℤ) - Int.log 2 |q|)) := zpow_pos (by norm_num) _
  have hk : (2 : ℚ) ^ (52 : ℤ) ≤ |q| * 2 ^ ((52 : ℤ) - Int.log 2 |q|) := by
    have h1 : (2 : ℚ) ^ Int.log 2 |q| * 2 ^ ((52 : ℤ) - Int.log 2 |q|) ≤
        |q| * 2 ^ ((52 : ℤ) - Int.log 2 |q|) :=
      mul_le_mul_of_nonneg_right hpow (le_of_lt hzpos)
    calc (2 : ℚ) ^ (52 : ℤ) =
        2 ^ Int.log 2 |q| * 2 ^ ((52 : ℤ) - Int.log 2 |q|) := by
          rw [← zpow_add₀ (by norm_num : (2 : ℚ) ≠ 0)]
          ring_nf
      _ ≤ |q| * 2 ^ ((52 : ℤ) - Int.log 2 |q|) := h1
  have hm : ((2 : ℤ) ^ (52 : ℕ) : ℤ) ≤
      roundHalfEven (|q| * 2 ^ ((52 : ℤ) - Int.log 2 |q|)) := by
    refine le_trans ?_ (roundHalfEven_ge_floor _)
    apply Int.le_floor.mpr
    push_cast
    calc ((2 : ℚ) ^ (52 : ℕ)) = 2 ^ (52 : ℤ) := by
          rw [← zpow_natCast]
          norm_num
      _ ≤ |q| * 2 ^ ((52 : ℤ) - Int.log 2 |q|) := hk
  have hfinal : (1 : ℚ) ≤
      (roundHalfEven (|q| * 2 ^ ((52 : ℤ) - Int.log 2 |q|)) : ℚ) *
        2 ^ (-((52 : ℤ) - Int.log 2 |q|)) := by
    have h2 : ((2 : ℚ) ^ (52 : ℕ)) * 2 ^ (-((52 : ℤ) - Int.log 2 |q|)) ≤
        (roundHalfEven (|q| * 2 ^ ((52 : ℤ) - Int.log 2 |q|)) : ℚ) *
          2 ^ (-((52 : ℤ) - Int.log 2 |q|)) := by
      apply mul_le_mul_of_nonneg_right _ (le_of_lt hzpos2)
      exact_mod_cast hm
    have h3 : ((2 : ℚ) ^ (52 : ℕ)) * 2 ^ (-((52 : ℤ) - Int.log 2 |q|)) =
        2 ^ Int.log 2 |q| := by
      rw [← zpow_natCast, ← zpow_add₀ (by norm_num : (2 : ℚ) ≠ 0)]
      ring_nf
    have h4 : (1 : ℚ) ≤ 2 ^ Int.log 2 |q| := one_le_zpow₀ (by norm_num) he0
    linarith
  nlinarith [hfinal]

theorem chunkSize_neg {d : ℤ} (hd : d < 0) : chunkSize d ≤ -1 := by
  have hdq : (d : ℚ) ≤ -1 := by exact_mod_cast (by omega : d ≤ -1)
  have harg : (INPUT_SAMPLE_RATE : ℚ) * (d : ℚ) / 1000 ≤ -1 := by
    unfold INPUT_SAMPLE_RATE
    push_cast
    rw [div_le_iff₀ (by norm_num : (0 : ℚ) < 1000)]
    nlinarith
  have h2 := fl53_le_neg_one harg
  unfold chunkSize truncQ
  rw [if_neg (by linarith)]
  refine Int.ceil_le.mpr ?_
  push_cast
  exact h2

theorem fl53_zero : fl53 0 = 0 := by
  unfold fl53
  rw [if_pos rfl]

theorem chunkSize_zero : chunkSize 0 = 0 := by
  unfold chunkSize
  rw [show (INPUT_SAMPLE_RATE : ℚ) * ((0 : ℤ) : ℚ) / 1000 = 0 by push_cast; ring]
  rw [fl53_zero]
  unfold truncQ
  rw [if_pos le_rfl]
  exact Int.floor_zero

theorem roundHalfEven_int (n : ℤ) : roundHalfEven (n : ℚ) = n := by
  unfold roundHalfEven
  rw [Int.floor_intCast]
  rw [if_pos (by norm_num)]

theorem chunkSize_100 : chunkSize 100 = 1600 := by
  unfold chunkSize
  rw [show (INPUT_SAMPLE_RATE : ℚ) * ((100 : ℤ) : ℚ) / 1000 = 1600 by
    unfold INPUT_SAMPLE_RATE; push_cast; norm_num]
  have hlog : Int.log 2 (1600 : ℚ) = (10 : ℕ) :=
    int_log2_eval _ 10 (by norm_num) (by norm_num) (by norm_num)
  have hrhe : roundHalfEven ((1600 : ℚ) * 2 ^ ((52 : ℤ) - ((10 : ℕ) : ℕ))) =
      1600 * 2 ^ (42 : ℕ) := by
    rw [show ((52 : ℤ) - ((10 : ℕ) : ℕ)) = ((42 : ℕ) : ℤ) by norm_num, zpow_natCast]
    rw [show ((1600 : ℚ) * 2 ^ (42 : ℕ)) = ((1600 * 2 ^ (42 : ℕ) : ℤ) : ℚ) by
      push_cast; ring]
    exact roundHalfEven_int _
  rw [fl53_eval_pos _ 10 (1600 * 2 ^ (42 : ℕ)) (by norm_num) hlog hrhe]
  rw [show (-((52 : ℤ) - ((10 : ℕ) : ℕ))) = -((42 : ℕ) : ℤ) by norm_num]
  rw [zpow_neg, zpow_natCast]
  rw [show ((1600 * 2 ^ (42 : ℕ) : ℤ) : ℚ) * ((2 : ℚ) ^ (42 : ℕ))⁻¹ = 1600 by
    push_cast; field_simp; norm_num]
  unfold truncQ
  rw [if_pos (by norm_num)]
  rw [show (1600 : ℚ) = ((1600 : ℤ) : ℚ) by norm_num, Int.floor_intCast]

theorem fl53_eval_neg (q : ℚ) (e : ℕ) (m : ℤ) (hq : q < 0)
    (hlog : Int.log 2 (-q) = e)
    (hrhe : roundHalfEven (-q * 2 ^ ((52 : ℤ) - (e : ℕ))) = m) :
    fl53 q = -((m : ℚ) * 2 ^ (-((52 : ℤ) - (e : ℕ)))) := by
  unfold fl53
  rw [if_neg (ne_of_lt hq), if_neg (not_lt.mpr (le_of_lt hq)), abs_of_neg hq, hlog, hrhe]
  ring

theorem chunkSize_neg_one : chunkSize (-1) = -16 := by
  unfold chunkSize
  rw [show (INPUT_SAMPLE_RATE : ℚ) * ((-1 : ℤ) : ℚ) / 1000 = -16 by
    unfold INPUT_SAMPLE_RATE; push_cast; norm_num]
  have hlog : Int.log 2 (-(-16 : ℚ)) = (4 : ℕ) := by
    rw [show (-(-16 : ℚ)) = 16 by norm_num]
    exact int_log2_eval _ 4 (by norm_num) (by norm_num) (by norm_num)
  have hrhe : roundHalfEven (-(-16 : ℚ) * 2 ^ ((52 : ℤ) - ((4 : ℕ) : ℕ))) =
      16 * 2 ^ (48 : ℕ) := by
    rw [show ((52 : ℤ) - ((4 : ℕ) : ℕ)) = ((48 : ℕ) : ℤ) by norm_num, zpow_natCast]
    rw [show (-(-16 : ℚ) * 2 ^ (48 : ℕ)) = ((16 * 2 ^ (48 : ℕ) : ℤ) : ℚ) by
      push_cast; ring]
    exact roundHalfEven_int _
  rw [fl53_eval_neg _ 4 (16 * 2 ^ (48 : ℕ)) (by norm_num) hlog hrhe]
  rw [show (-((52 : ℤ) - ((4 : ℕ) : ℕ))) = -((48 : ℕ) : ℤ) by norm_num]
  rw [zpow_neg, zpow_natCast]
  rw [show -(((16 * 2 ^ (48 : ℕ) : ℤ) : ℚ) * ((2 : ℚ) ^ (48 : ℕ))⁻¹) = -16 by
    push_cast; field_simp; norm_num]
  unfold truncQ
  rw [if_neg (by norm_num)]
  rw [show (-16 : ℚ) = ((-16 : ℤ) : ℚ) by norm_num, Int.ceil_intCast]

/-- C6, amended claim: whenever the computed chunk size is at least 1 (which
holds for every positive duration in the practical range), the chunks
concatenate back to the input, every chunk except possibly the last has
exactly chunk_size samples, and the empty buffer yields zero chunks.  For
durations with chunk size below 1 the claim fails (`C6_chunk_complete_cex`):
duration 0 raises and negative durations return zero chunks. -/
theorem C6_chunk_complete (x : List ℤ) (d : ℤ) (hcs : 1 ≤ chunkSize d) :
    ∃ cl, create_audio_chunks x d = .ok cl ∧ cl.flatten = x ∧
      (∀ c ∈ cl.dropLast, c.length = (chunkSize d).toNat) ∧ (x = [] → cl = []) := by
  unfold create_audio_chunks
  rw [if_neg (by omega), if_neg (by omega)]
  refine ⟨_, rfl, splitChunks_join _ x, ?_, ?_⟩
  · intro c hc
    have h := splitChunks_dropLast_length ((chunkSize d).toNat - 1) x c hc
    omega
  · intro hx
    rw [hx]
    simp [splitChunks]

/-- C6, counterexample: with duration -1 ms on the nonempty buffer [0] the
code returns zero chunks (chunk size is -16, making the range empty), so the
concatenation of the chunks is empty and does not equal the input. -/
theorem C6_chunk_complete_cex :
    create_audio_chunks [0] (-1) = .ok [] ∧ (([] : List (List ℤ)).flatten ≠ [0]) := by
  constructor
  · unfold create_audio_chunks
    rw [chunkSize_neg_one]
    rw [if_neg (by decide), if_pos (by decide)]
  · simp

/-- C6, witness: chunking [1, 2, 3] with the default 100 ms duration
(chunk size 1600). -/
theorem C6_chunk_complete_witness :
    ∃ cl, create_audio_chunks [1, 2, 3] 100 = .ok cl ∧ cl.flatten = [1, 2, 3] ∧
      (∀ c ∈ cl.dropLast, c.length = (chunkSize 100).toNat) ∧
      (([1, 2, 3] : List ℤ) = [] → cl = []) :=
  C6_chunk_complete [1, 2, 3] 100 (by rw [chunkSize_100]; norm_num)

/-- C10, confirmed: create_audio_chunks is defined only for chunk sizes of at
least 1: a zero duration computes chunk size 0 and raises (Python's range
rejects a zero step), and any negative duration computes a negative chunk
size, for which range(0, len, step) is empty, so the call returns zero chunks
even on nonempty input; hence chunking completeness needs the precondition
chunk size ≥ 1. -/
theorem C10_chunk_duration_domain :
    (∀ x : List ℤ, create_audio_chunks x 0 = .error "range() arg 3 must not be zero") ∧
      ∀ (x : List ℤ) (d : ℤ), d < 0 → create_audio_chunks x d = .ok [] := by
  constructor
  · intro x
    unfold create_audio_chunks
    rw [if_pos chunkSize_zero]
  · intro x d hd
    have h := chunkSize_neg hd
    unfold create_audio_chunks
    rw [if_neg (by omega), if_pos (by omega)]

/-- C10, witness: the zero-duration error and the negative-duration empty
result evaluated on the nonempty buffer [5]. -/
theorem C10_chunk_duration_domain_witness :
    create_audio_chunks [5] 0 = .error "range() arg 3 must not be zero" ∧
      create_audio_chunks [5] (-1) = .ok [] :=
  ⟨C10_chunk_duration_domain.1 [5], C10_chunk_duration_domain.2 [5] (-1) (by decide)⟩

/-- Model of the AudioBuffer class (audio_utils.py lines 237-291): held
chunks, running sample count, fixed rate. -/
structure AudioBuffer where
  sample_rate : ℚ
  buffer : List (List ℚ)
  total_samples : ℕ

/-- Model of AudioBuffer.__init__. -/
def AudioBuffer.init (sample_rate : ℚ) : AudioBuffer :=
  ⟨sample_rate, [], 0⟩

/-- Model of AudioBuffer.add_chunk: append the chunk, add its length. -/
def AudioBuffer.add_chunk (s : AudioBuffer) (audio_chunk : List ℚ) : AudioBuffer :=
  { s with
    buffer := s.buffer ++ [audio_chunk],
    total_samples := s.total_samples + audio_chunk.length }

/-- Model of AudioBuffer.get_duration: total_samples / sample_rate. -/
def AudioBuffer.get_duration (s : AudioBuffer) : ℚ :=
  (s.total_samples : ℚ) / s.sample_rate

/-- Model of AudioBuffer.get_all_audio: an empty array when no chunks are
held, otherwise np.concatenate of the held chunks; the state component
records that the method does not mutate the object. -/
def AudioBuffer.get_all_audio (s : AudioBuffer) : List ℚ × AudioBuffer :=
  (if s.buffer = [] then [] else s.buffer.flatten, s)

/-- Model of AudioBuffer.clear. -/
def AudioBuffer.clear (s : AudioBuffer) : AudioBuffer :=
  { s with buffer := [], total_samples := 0 }

/-- Model of AudioBuffer.is_empty. -/
def AudioBuffer.is_empty (s : AudioBuffer) : Bool :=
  s.buffer.length = 0

/-- A method call on the accumulation buffer, for stating the invariant over
arbitrary call sequences. -/
inductive BufOp where
  | add : List ℚ → BufOp
  | clear : BufOp

/-- Apply one buffer operation. -/
def applyOp (s : AudioBuffer) : BufOp → AudioBuffer
  | .add chunk => s.add_chunk chunk
  | .clear => s.clear

/-- Run a sequence of buffer operations from a starting state. -/
def runOps (s : AudioBuffer) : List BufOp → AudioBuffer
  | [] => s
  | op :: rest => runOps (applyOp s op) rest

theorem runOps_invariant (ops : List BufOp) :
    ∀ s : AudioBuffer, s.total_samples = (s.buffer.map List.length).sum →
      (runOps s ops).total_samples = ((runOps s ops).buffer.map List.length).sum ∧
        (runOps s ops).sample_rate = s.sample_rate := by
  induction ops with
  | nil => intro s hs; exact ⟨hs, rfl⟩
  | cons op rest ih =>
    intro s hs
    have hstep : (applyOp s op).total_samples =
        ((applyOp s op).buffer.map List.length).sum := by
      rcases op with chunk | _
      · simp [applyOp, AudioBuffer.add_chunk, hs]
      · simp [applyOp, AudioBuffer.clear]
    have h := ih (applyOp s op) hstep
    have hrate : (applyOp s op).sample_rate = s.sample_rate := by
      rcases op with chunk | _ <;> rfl
    exact ⟨h.1, h.2.trans hrate⟩

/-- C7, confirmed: starting from construction, after any sequence of
add_chunk and clear calls the running count equals the sum of the lengths of
the held buffers, so get_duration equals that sum divided by the sample rate;
and immediately after clear, is_empty holds and the duration is zero. -/
theorem C7_buffer_invariant (rate : ℚ) (ops : List BufOp) :
    (runOps (AudioBuffer.init rate) ops).total_samples =
        ((runOps (AudioBuffer.init rate) ops).buffer.map List.length).sum ∧
      (runOps (AudioBuffer.init rate) ops).get_duration =
        (((runOps (AudioBuffer.init rate) ops).buffer.map List.length).sum : ℚ) /
          (runOps (AudioBuffer.init rate) ops).sample_rate ∧
      ∀ s : AudioBuffer, (s.clear).is_empty = true ∧ (s.clear).get_duration = 0 := by
  obtain ⟨h1, _⟩ := runOps_invariant ops (AudioBuffer.init rate) rfl
  refine ⟨h1, ?_, ?_⟩
  · unfold AudioBuffer.get_duration
    rw [h1]
  · intro s
    refine ⟨rfl, ?_⟩
    unfold AudioBuffer.get_duration AudioBuffer.clear
    simp

/-- C9, confirmed: get_all_audio returns the concatenation of the held
buffers in insertion order (the empty buffer when none are held) and leaves
the state, held chunks and total count alike, unchanged. -/
theorem C9_flush_frame (s : AudioBuffer) :
    s.get_all_audio = (s.buffer.flatten, s) := by
  rcases h : s.buffer with _ | ⟨c, cs⟩ <;> simp [AudioBuffer.get_all_audio, h]

end AudioUtils
